import Mathlib

/-!
Verification development for the PSP tracker data pipeline (`app.py`).

The pipeline under study is `PSPAnalyzer.detect_columns` and
`PSPAnalyzer.process_data`:

* `detect_columns` resolves free-form spreadsheet headers to the canonical
  fields `country`, `psp`, `week`, `press_buy`, `converted`,
  `payment_option` by exact match and case-insensitive substring match
  over an ordered synonym table.
* `process_data` renames the resolved columns, coerces `press_buy` and
  `converted` to numbers (`pd.to_numeric(..., errors='coerce').fillna(0)`),
  computes `conversion_rate` (with IEEE infinities replaced by 0), and
  computes per-`(country, week)`-group share columns via
  `groupby(['country','week']).apply(...).reset_index(drop=True)`.

Cell values are modelled with exact rationals; the IEEE special values
produced by division are modelled explicitly by `EVal`.
-/

/-- A spreadsheet cell: a number, a string, or an empty cell (pandas `NaN`). -/
inductive Cell where
  | num (q : ℚ)
  | str (s : String)
  | empty
deriving DecidableEq, Repr

/-- A float-like value as produced by pandas column arithmetic: a finite
rational, one of the two infinities, or `NaN`. -/
inductive EVal where
  | fin (q : ℚ)
  | pinf
  | ninf
  | nan
deriving DecidableEq, Repr

/- ### Numeric coercion: `pd.to_numeric(col, errors='coerce').fillna(0)` -/

/-- Accumulate decimal digits; any non-digit character fails the parse. -/
def natOfDigitsAux : List Char → Nat → Option Nat
  | [], acc => some acc
  | c :: cs, acc =>
      if c.isDigit then natOfDigitsAux cs (acc * 10 + (c.toNat - 48)) else none

/-- Parse a non-empty run of decimal digits. -/
def natOfDigits (cs : List Char) : Option Nat :=
  if cs.isEmpty then none else natOfDigitsAux cs 0

/-- Parse an unsigned decimal numeral, optionally with a fractional part
(as accepted by `pd.to_numeric`: `"12"`, `"12.5"`, `"12."`, `".5"`). -/
def parseUnsignedQ (cs : List Char) : Option ℚ :=
  match cs.splitOn '.' with
  | [ip] => (natOfDigits ip).map (fun n => (n : ℚ))
  | [ip, fp] =>
      if ip.isEmpty && fp.isEmpty then none
      else do
        let n ← if ip.isEmpty then some 0 else natOfDigits ip
        let f ← if fp.isEmpty then some 0 else natOfDigits fp
        some ((n : ℚ) + (f : ℚ) / (10 : ℚ) ^ fp.length)
  | _ => none

/-- Parse a decimal numeral with optional sign and surrounding whitespace,
as `pd.to_numeric` accepts for string cells. -/
def parseNum (s : String) : Option ℚ :=
  let cs := ((s.toList.dropWhile (·.isWhitespace)).reverse.dropWhile
      (·.isWhitespace)).reverse
  match cs with
  | '-' :: rest => (parseUnsignedQ rest).map (fun q => -q)
  | '+' :: rest => parseUnsignedQ rest
  | _ => parseUnsignedQ cs

/-- `pd.to_numeric(·, errors='coerce')` on one cell: numbers pass through,
numeric strings are parsed, everything else becomes `NaN` (here `none`). -/
def toNumericCell : Cell → Option ℚ
  | .num q => some q
  | .str s => parseNum s
  | .empty => none

/-- The full coercion of one `press_buy`/`converted` cell:
`pd.to_numeric(·, errors='coerce').fillna(0)` (app.py line 107). -/
def coerceCell (c : Cell) : ℚ :=
  (toNumericCell c).getD 0

/- ### C1 theorems -/

/-- C1 counterexample: the claim says the coercion always yields a
non-negative value, but the numeric cell `-5` passes through coercion
unchanged, yielding the negative value `-5`. -/
theorem coerceCell_neg_counterexample :
    coerceCell (Cell.num (-5)) = -5 ∧ ¬ (0 ≤ coerceCell (Cell.num (-5))) := by
  constructor
  · rfl
  · decide

/-- C1 (amended): the coercion of a `press_buy`/`converted` cell is total
(it is a Lean function), any unparsable cell is replaced by 0, and the
result is non-negative provided the cell does not parse to a negative
number; a cell holding a negative number passes through unchanged. -/
theorem coerceCell_total_spec (c : Cell) :
    (toNumericCell c = none → coerceCell c = 0) ∧
    ((∀ q : ℚ, toNumericCell c = some q → 0 ≤ q) → 0 ≤ coerceCell c) := by
  constructor
  · intro h
    simp [coerceCell, h]
  · intro h
    cases hc : toNumericCell c with
    | none => simp [coerceCell, hc]
    | some q =>
        have := h q hc
        simpa [coerceCell, hc] using this

/-- C1 witness: the non-numeric string cell `"abc"` is unparsable and
coerces to 0, which is non-negative. -/
theorem coerceCell_total_spec_witness :
    coerceCell (Cell.str "abc") = 0 ∧ 0 ≤ coerceCell (Cell.str "abc") :=
  ⟨(coerceCell_total_spec (Cell.str "abc")).1 (by decide),
   (coerceCell_total_spec (Cell.str "abc")).2 (by decide)⟩

/- ### Column resolver: `PSPAnalyzer.detect_columns` (app.py lines 61-90) -/

/-- The canonical fields of the pipeline's schema. -/
inductive ColField where
  | country
  | psp
  | week
  | press_buy
  | converted
  | payment_option
deriving DecidableEq, Repr

/-- Python's `needle in hay` prefix test on character lists. -/
def startsWithL : List Char → List Char → Bool
  | [], _ => true
  | _ :: _, [] => false
  | a :: as, b :: bs => a = b && startsWithL as bs

/-- Python's substring containment `needle in hay` on character lists. -/
def inL (n : List Char) : List Char → Bool
  | [] => startsWithL n []
  | h :: hs => startsWithL n (h :: hs) || inL n hs

/-- Python's `needle in hay` on strings (substring containment). -/
def pyIn (needle hay : String) : Bool :=
  inL needle.toList hay.toList

/-- Python's `str.lower()` (character by character). -/
def pyLower (s : String) : String :=
  ⟨s.toList.map Char.toLower⟩

/-- The `column_mapping` dictionary of app.py lines 64-71: each canonical
field with its candidate synonyms in priority order (dict insertion
order). -/
def columnMapping : List (ColField × List String) :=
  [ (.country, ["country", "Country", "COUNTRY", "market", "Market", "MARKET"]),
    (.psp, ["psp", "PSP", "payment service provider", "Payment Provider",
            "provider", "Provider"]),
    (.week, ["week", "Week", "WEEK", "date", "Date", "period", "Period"]),
    (.press_buy, ["press buy count", "press_buy_count", "PressBuyCount",
                  "press buy", "buys", "Buys"]),
    (.converted, ["converted count", "converted_count", "ConvertedCount",
                  "converted", "conversions", "Conversions"]),
    (.payment_option, ["last selected payment option", "payment option",
                       "payment method"]) ]

/-- The candidate synonym list of one canonical field. -/
def fieldCands (f : ColField) : List String :=
  ((columnMapping.find? (fun p => decide (p.1 = f))).map Prod.snd).getD []

/-- The inner fuzzy loop of `detect_columns` (app.py lines 83-86): the first
header that contains the candidate, or is contained in it, case-insensitively. -/
def findFuzzy (c : String) (hs : List String) : Option String :=
  hs.find? (fun col => pyIn (pyLower c) (pyLower col) || pyIn (pyLower col) (pyLower c))

/-- Resolution of one canonical field (app.py lines 77-88): for each
candidate in priority order, first try the exact (case-sensitive) match,
then the fuzzy match; the first hit wins. -/
def resolveField (cands : List String) (hs : List String) : Option String :=
  match cands with
  | [] => none
  | c :: rest =>
      if hs.contains c then some c
      else
        match findFuzzy c hs with
        | some col => some col
        | none => resolveField rest hs

/-- `detect_columns` (app.py lines 61-90): the `detected_columns` dict as an
association list in insertion order. -/
def detectColumns (hs : List String) : List (ColField × String) :=
  columnMapping.filterMap (fun p => (resolveField p.2 hs).map (fun h => (p.1, h)))

/-- Dictionary lookup `detected_columns[f]`. -/
def lookupField (det : List (ColField × String)) (f : ColField) : Option String :=
  (det.find? (fun p => decide (p.1 = f))).map Prod.snd

/- ### Metric processor: `PSPAnalyzer.process_data` (app.py lines 92-125) -/

/-- The canonical name a detected field renames its source header to. -/
def fieldName : ColField → String
  | .country => "country"
  | .psp => "psp"
  | .week => "week"
  | .press_buy => "press_buy"
  | .converted => "converted"
  | .payment_option => "payment_option"

/-- The required fields checked at app.py line 97, in source order. -/
def requiredFields : List ColField :=
  [.country, .psp, .week, .press_buy, .converted]

/-- `df.rename(columns={v: k for k, v in detected_columns.items()})` applied
to one header: the inverted dict maps a header to the LAST field bound to it
(later dict-comprehension entries overwrite earlier ones). -/
def renameHeader (det : List (ColField × String)) (h : String) : String :=
  match det.reverse.find? (fun p => decide (p.2 = h)) with
  | some p => fieldName p.1
  | none => h

/-- The header list after the rename of app.py line 102. -/
def renamedHeaders (t : List String) : List String :=
  t.map (renameHeader (detectColumns t))

/-- IEEE division of two finite values, as performed columnwise by pandas:
division by zero yields an infinity, `0/0` yields `NaN`. -/
def ediv (a b : ℚ) : EVal :=
  if b = 0 then
    if 0 < a then .pinf else if a < 0 then .ninf else .nan
  else .fin (a / b)

/-- IEEE multiplication of a float-like value by a positive finite constant
(used with the constant 100). -/
def emulPos (v : EVal) (c : ℚ) : EVal :=
  match v with
  | .fin q => .fin (q * c)
  | .pinf => .pinf
  | .ninf => .ninf
  | .nan => .nan

/-- Rounding to the nearest integer with ties going to the even integer,
as `np.round`/`np.rint` round (pandas `Series.round` uses numpy's
half-to-even rule, not half-up). -/
def roundHalfEven (q : ℚ) : ℤ :=
  if q - ⌊q⌋ < 1 / 2 then ⌊q⌋
  else if 1 / 2 < q - ⌊q⌋ then ⌊q⌋ + 1
  else if ⌊q⌋ % 2 = 0 then ⌊q⌋ else ⌊q⌋ + 1

/-- Rounding to two decimals, `Series.round(2)` on a finite value:
scale by 100, round half-to-even, scale back. -/
def round2 (q : ℚ) : ℚ :=
  ((roundHalfEven (q * 100) : ℤ) : ℚ) / 100

/-- `Series.round(2)`: infinities and `NaN` round to themselves. -/
def eround2 : EVal → EVal
  | .fin q => .fin (round2 q)
  | .pinf => .pinf
  | .ninf => .ninf
  | .nan => .nan

/-- `Series.replace([np.inf, -np.inf], 0)` (app.py line 111): both
infinities are replaced by 0; `NaN` is left untouched. -/
def replaceInf : EVal → EVal
  | .pinf => .fin 0
  | .ninf => .fin 0
  | v => v

/-- One record of the enriched table: the original (renamed-header) row of
cells plus the extracted key cells and the derived numeric columns. -/
structure ERow where
  cells : List Cell
  country : Cell
  week : Cell
  press_buy : ℚ
  converted : ℚ
  conversion_rate : EVal
  press_buy_share : ℚ
  converted_share : ℚ
deriving DecidableEq, Repr

/-- Reading one cell of a row by column index; a short row reads as `NaN`. -/
def cellAt (r : List Cell) (i : Nat) : Cell :=
  r.getD i Cell.empty

/-- Per-row processing before grouping: numeric coercion of `press_buy` and
`converted` (line 107) and the `conversion_rate` computation
(lines 110-111).  The share columns are placeholders overwritten by
`addShares`. -/
def mkRow (ico iw ip icv : Nat) (r : List Cell) : ERow :=
  let pb := coerceCell (cellAt r ip)
  let cv := coerceCell (cellAt r icv)
  { cells := r
    country := cellAt r ico
    week := cellAt r iw
    press_buy := pb
    converted := cv
    conversion_rate := replaceInf (eround2 (emulPos (ediv cv pb) 100))
    press_buy_share := 0
    converted_share := 0 }

/-- The per-row coercion and `conversion_rate` pass over the whole table. -/
def enrichRows (ico iw ip icv : Nat) (rows : List (List Cell)) : List ERow :=
  rows.map (mkRow ico iw ip icv)

/-- The `(country, week)` group key of a record. -/
def keyOf (r : ERow) : Cell × Cell :=
  (r.country, r.week)

/-- A `groupby(['country','week'])` key is used only when both components
are non-null (`groupby` drops rows with a `NaN` key). -/
def validKey (k : Cell × Cell) : Bool :=
  !(decide (k.1 = Cell.empty)) && !(decide (k.2 = Cell.empty))

/-- The share computation of `calculate_shares` (app.py lines 118-119)
applied to one row, given the group totals. -/
def shareUpd (tp tc : ℚ) (r : ERow) : ERow :=
  { r with
    press_buy_share := if 0 < tp then round2 (r.press_buy / tp * 100) else 0
    converted_share := if 0 < tc then round2 (r.converted / tc * 100) else 0 }

/-- `calculate_shares` (app.py lines 114-120) on one group: compute the two
group totals and update every row's share columns. -/
def addShares (g : List ERow) : List ERow :=
  g.map (shareUpd ((g.map (·.press_buy)).sum) ((g.map (·.converted)).sum))

/-- Lexicographic comparison of strings as lists of characters (Python's
`str` ordering by code point). -/
def strLeL : List Char → List Char → Bool
  | [], _ => true
  | _ :: _, [] => false
  | a :: as, b :: bs => if a = b then strLeL as bs else decide (a < b)

/-- Ordering of cells as `groupby(sort=True)` sorts homogeneous key values
(numbers among numbers, strings among strings lexicographically). -/
def cellLeB : Cell → Cell → Bool
  | .num a, .num b => decide (a ≤ b)
  | .num _, _ => true
  | .str _, .num _ => false
  | .str a, .str b => strLeL a.toList b.toList
  | .str _, .empty => true
  | .empty, .empty => true
  | .empty, _ => false

/-- Lexicographic ordering of `(country, week)` keys. -/
def keyLeB (a b : Cell × Cell) : Bool :=
  if a.1 = b.1 then cellLeB a.2 b.2 else cellLeB a.1 b.1

/-- Sorting the group keys, as `groupby(..., sort=True)` orders the groups. -/
def sortKeys (ks : List (Cell × Cell)) : List (Cell × Cell) :=
  List.insertionSort (fun a b => keyLeB a b = true) ks

/-- The distinct non-null group keys of the enriched rows. -/
def groupKeys (rs : List ERow) : List (Cell × Cell) :=
  sortKeys (((rs.map keyOf).dedup).filter validKey)

/-- `df.groupby(['country','week']).apply(calculate_shares)
.reset_index(drop=True)` (app.py line 122): rows with a null key are
dropped, the remaining rows are regrouped in sorted key order (input order
kept inside each group), and each group gets its share columns. -/
def groupRows (rs : List ERow) : List ERow :=
  ((groupKeys rs).map
    (fun k => addShares (rs.filter (fun r => decide (keyOf r = k))))).flatten

/-- The error generated by `process_data`: either the schema failure of
app.py lines 97-99 (carrying the literal `st.error` message, which does not
name the missing fields), or a pandas `KeyError` on a missing column. -/
inductive PipeErr where
  | schema (msg : String)
  | key (col : String)
deriving DecidableEq, Repr

/-- The literal message shown by app.py line 98 on schema failure. -/
def schemaMsg : String := "❌ 无法识别必要的数据列，请检查文件格式"

/-- The processed table: renamed headers plus the enriched records. -/
structure ProcTable where
  headers : List String
  rows : List ERow
deriving DecidableEq, Repr

/-- The raw input table. -/
structure RawTable where
  headers : List String
  rows : List (List Cell)
deriving DecidableEq, Repr

/-- The column indexes `process_data` reads after the rename, in the order
line 107 (press_buy, then converted) and line 122 (country, week) read
them; `none` when the first of them is missing. -/
def resolveIdxs (t : RawTable) : Option (Nat × Nat × Nat × Nat) :=
  let hs2 := renamedHeaders t.headers
  match hs2.findIdx? (fun h => decide (h = "press_buy")) with
  | none => none
  | some ip =>
    match hs2.findIdx? (fun h => decide (h = "converted")) with
    | none => none
    | some icv =>
      match hs2.findIdx? (fun h => decide (h = "country")) with
      | none => none
      | some ico =>
        match hs2.findIdx? (fun h => decide (h = "week")) with
        | none => none
        | some iw => some (ip, icv, ico, iw)

/-- `PSPAnalyzer.process_data` (app.py lines 92-125): detect the columns,
fail on an unresolved required field (lines 97-99), rename (line 102),
coerce and derive per-row metrics (lines 105-111), then group and compute
shares (lines 114-122).  A pandas `KeyError` on a column missing after the
rename is an `.error (.key ...)`. -/
def processData (t : RawTable) : Except PipeErr ProcTable :=
  let det := detectColumns t.headers
  if requiredFields.all (fun f => (lookupField det f).isSome) then
    let hs2 := renamedHeaders t.headers
    match hs2.findIdx? (fun h => decide (h = "press_buy")) with
    | none => .error (.key "press_buy")
    | some ip =>
      match hs2.findIdx? (fun h => decide (h = "converted")) with
      | none => .error (.key "converted")
      | some icv =>
        match hs2.findIdx? (fun h => decide (h = "country")) with
        | none => .error (.key "country")
        | some ico =>
          match hs2.findIdx? (fun h => decide (h = "week")) with
          | none => .error (.key "week")
          | some iw =>
            .ok ⟨hs2, groupRows (enrichRows ico iw ip icv t.rows)⟩
  else .error (.schema schemaMsg)

/-- The records of a pipeline result; an aborted pipeline yields none. -/
def getRows (e : Except PipeErr ProcTable) : List ERow :=
  match e with
  | .ok t => t.rows
  | .error _ => []

/- ### Concrete tables used by the end-to-end theorems -/

/-- The two-row input of the end-to-end scenario:
`(US, PayPal, W1, 100, 20)` and `(US, Stripe, W1, 50, 10)`. -/
def sampleTable : RawTable :=
  ⟨["country", "psp", "week", "press_buy", "converted"],
   [[.str "US", .str "PayPal", .str "W1", .num 100, .num 20],
    [.str "US", .str "Stripe", .str "W1", .num 50, .num 10]]⟩

/-- Two rows whose countries arrive in the order `B`, `A`. -/
def twoCountryTable : RawTable :=
  ⟨["country", "psp", "week", "press_buy", "converted"],
   [[.str "B", .str "P", .str "W", .num 1, .num 1],
    [.str "A", .str "P", .str "W", .num 1, .num 1]]⟩

/-- One row with `press_buy = 0` and `converted = 0`. -/
def zeroZeroTable : RawTable :=
  ⟨["country", "psp", "week", "press_buy", "converted"],
   [[.str "US", .str "P", .str "W", .num 0, .num 0]]⟩

/-- A header list with no recognizable `country` column. -/
def missingCountryTable : RawTable :=
  ⟨["psp", "week", "press buy count", "converted count"], []⟩

/-- A header matched by both a `press_buy` synonym (`"press buy"`) and a
`converted` synonym (`"converted count"`). -/
def clashTable : RawTable :=
  ⟨["country", "psp", "week", "press buy and converted count"],
   [[.str "US", .str "P", .str "W", .num 1]]⟩

/-- One `(US, W)` group of 23 rows with total `press_buy` 100: 22 rows of
`0.0049` (whose share `0.0049%` rounds down to `0.00` — no rounding tie,
so any rounding convention agrees) and one row of `99.8922` (whose share
`99.8922%` rounds down to `99.89`, again tie-free). -/
def manyRowsTable : RawTable :=
  ⟨["country", "psp", "week", "press_buy", "converted"],
   List.replicate 22
       ([.str "US", .str "P", .str "W", .num (49 / 10000), .num 0] :
         List Cell) ++
     [[.str "US", .str "P", .str "W", .num (998922 / 10000), .num 0]]⟩

/- ### C8: the end-to-end scenario -/

unseal Rat.mul Rat.add Rat.sub Rat.inv in
/-- C8: on the input `[(US, PayPal, W1, 100, 20), (US, Stripe, W1, 50, 10)]`
the pipeline yields, in input order, `conversion_rate = [20, 20]`,
`press_buy_share = [66.67, 33.33]` and `converted_share = [66.67, 33.33]`. -/
theorem end_to_end_sample :
    (getRows (processData sampleTable)).map (fun r =>
        (r.conversion_rate, r.press_buy_share, r.converted_share)) =
      [(EVal.fin 20, 6667 / 100, 6667 / 100),
       (EVal.fin 20, 3333 / 100, 3333 / 100)] ∧
    (getRows (processData sampleTable)).map (fun r => cellAt r.cells 1) =
      [Cell.str "PayPal", Cell.str "Stripe"] := by
  decide

/- ### C9: the resolver mapping need not be injective -/

unseal Rat.mul Rat.add Rat.sub Rat.inv in
/-- C9: on `clashTable` the resolver binds both `press_buy` and `converted`
to the same source header; the inverted rename dict then drops the
`press_buy` column, so `process_data` fails with a `KeyError` on
`press_buy` (a pandas exception, not the resolver's schema failure). -/
theorem detect_collision_key_error :
    lookupField (detectColumns clashTable.headers) .press_buy =
      some "press buy and converted count" ∧
    lookupField (detectColumns clashTable.headers) .converted =
      some "press buy and converted count" ∧
    ColField.press_buy ≠ ColField.converted ∧
    (renamedHeaders clashTable.headers).contains "press_buy" = false ∧
    processData clashTable = .error (.key "press_buy") := by
  refine ⟨by decide, by decide, by decide, by decide, ?_⟩
  rfl

/- ### Counterexamples C2, C3, C4, C5, C6 -/

unseal Rat.mul Rat.add Rat.sub Rat.inv in
/-- C2 counterexample: the claim says the output rows keep the input
order, but on input countries `[B, A]` (same week) the grouped output
comes back in sorted key order `[A, B]`. -/
theorem processData_order_counterexample :
    (getRows (processData twoCountryTable)).map ERow.country =
      [Cell.str "A", Cell.str "B"] ∧
    twoCountryTable.rows.map (fun r => cellAt r 0) =
      [Cell.str "B", Cell.str "A"] := by
  decide

unseal Rat.mul Rat.add Rat.sub Rat.inv in
/-- C3 counterexample: the claim says a non-finite ratio always yields
`conversion_rate = 0`, but on `press_buy = 0, converted = 0` the `0/0`
ratio is `NaN`, which `replace([inf, -inf], 0)` does not touch. -/
theorem conversionRate_nan_counterexample :
    (getRows (processData zeroZeroTable)).map ERow.conversion_rate =
      [EVal.nan] ∧ EVal.nan ≠ EVal.fin 0 := by
  decide

/-- C4 counterexample: the header `"Country"` exactly matches the `country`
candidate synonym `"Country"`, yet the resolver binds `country` to the
different header `"my country column"`: the fuzzy match of the
higher-priority candidate `"country"` fires first. -/
theorem fuzzy_overrides_exact_counterexample :
    lookupField (detectColumns ["my country column", "Country"]) .country =
      some "my country column" ∧
    ("Country" ∈ (["my country column", "Country"] : List String)) ∧
    "Country" ∈ fieldCands .country ∧
    "my country column" ≠ "Country" := by
  decide

/-- C5 counterexample: with no recognizable `country` header the pipeline
does signal the schema failure, but its message is the fixed generic
string of app.py line 98, which does not name (contain) the unresolved
field `country`. -/
theorem schemaError_message_counterexample :
    processData missingCountryTable = .error (.schema schemaMsg) ∧
    lookupField (detectColumns missingCountryTable.headers) .country = none ∧
    pyIn "country" schemaMsg = false := by
  constructor
  · rfl
  · decide

unseal Rat.mul Rat.add Rat.sub Rat.inv in
/-- C6 counterexample: the `(US, W)` group of `manyRowsTable` has nonzero
`press_buy` total 100, yet its rounded shares sum to `99.89`, outside the
claimed `±0.1` tolerance.  Every share of this group rounds away from a
tie (scaled fractional parts `0.49` and `0.22`), so half-up and
half-to-even rounding agree on each row. -/
theorem share_sum_tolerance_counterexample :
    (((getRows (processData manyRowsTable)).filter
        (fun r => decide (keyOf r = (Cell.str "US", Cell.str "W")))).map
        ERow.press_buy).sum = 100 ∧
    (((getRows (processData manyRowsTable)).filter
        (fun r => decide (keyOf r = (Cell.str "US", Cell.str "W")))).map
        ERow.press_buy_share).sum = 9989 / 100 ∧
    ¬ (|(9989 : ℚ) / 100 - 100| ≤ 1 / 10) := by
  refine ⟨by decide, by decide, ?_⟩
  rw [not_le, show (9989 : ℚ) / 100 - 100 = -(11 / 100) by norm_num,
    abs_neg, abs_of_pos (by norm_num : (0 : ℚ) < 11 / 100)]
  norm_num

/- ### Resolver lemmas -/

/-- Exact match on the current candidate wins immediately. -/
theorem resolveField_exact (c : String) (rest hs : List String)
    (h : hs.contains c = true) : resolveField (c :: rest) hs = some c := by
  have hmem : c ∈ hs := by simpa using h
  simp [resolveField, hmem]

/-- A candidate with neither an exact nor a fuzzy match is skipped. -/
theorem resolveField_skip (c : String) (rest hs : List String)
    (h1 : hs.contains c = false) (h2 : findFuzzy c hs = none) :
    resolveField (c :: rest) hs = resolveField rest hs := by
  have hmem : c ∉ hs := by simpa using h1
  simp [resolveField, hmem, h2]

/-- A resolved header really is one of the input headers. -/
theorem resolveField_mem (cands hs : List String) (x : String)
    (h : resolveField cands hs = some x) : x ∈ hs := by
  induction cands with
  | nil => simp [resolveField] at h
  | cons c rest ih =>
      rw [resolveField] at h
      by_cases hc : hs.contains c = true
      · rw [if_pos hc] at h
        cases h
        simpa using hc
      · rw [if_neg hc] at h
        cases hf : findFuzzy c hs with
        | none => rw [hf] at h; exact ih h
        | some col =>
            rw [hf] at h
            cases h
            exact List.mem_of_find?_eq_some hf

/-- If a field key is absent from the synonym table, the (filter-mapped)
detection result has no entry for it. -/
theorem find_filterMap_notin (l : List (ColField × List String))
    (hs : List String) (f : ColField) (h : f ∉ l.map Prod.fst) :
    (l.filterMap
        (fun p => (resolveField p.2 hs).map (fun x => (p.1, x)))).find?
      (fun q => decide (q.1 = f)) = none := by
  induction l with
  | nil => rfl
  | cons p l ih =>
      simp only [List.map_cons, List.mem_cons, not_or] at h
      obtain ⟨h1, h2⟩ := h
      rw [List.filterMap_cons]
      cases hr : resolveField p.2 hs with
      | none => exact ih h2
      | some x =>
          rw [Option.map_some']
          rw [List.find?_cons_of_neg _ (by simpa using fun hx => h1 hx.symm)]
          exact ih h2

/-- For a synonym table with distinct field keys, looking a field up in the
detection result is the same as resolving that field's candidate list. -/
theorem find_filterMap_keyed (l : List (ColField × List String))
    (hs : List String) (f : ColField) (hnd : (l.map Prod.fst).Nodup) :
    lookupField
      (l.filterMap (fun p => (resolveField p.2 hs).map (fun x => (p.1, x)))) f =
    match l.find? (fun p => decide (p.1 = f)) with
    | some p => resolveField p.2 hs
    | none => none := by
  induction l with
  | nil => rfl
  | cons p l ih =>
      rw [List.map_cons, List.nodup_cons] at hnd
      obtain ⟨hp, hnd⟩ := hnd
      by_cases hpf : p.1 = f
      · rw [List.find?_cons_of_pos _ (by simpa using hpf)]
        rw [List.filterMap_cons]
        cases hr : resolveField p.2 hs with
        | some x =>
            rw [Option.map_some']
            rw [lookupField, List.find?_cons_of_pos _ (by simpa using hpf)]
            simp [hr]
        | none =>
            rw [lookupField]
            simp only [Option.map_none']
            rw [find_filterMap_notin l hs f (hpf ▸ hp)]
            simp [hr]
      · rw [List.find?_cons_of_neg _ (by simpa using hpf)]
        rw [List.filterMap_cons]
        cases hr : resolveField p.2 hs with
        | some x =>
            rw [Option.map_some']
            rw [lookupField, List.find?_cons_of_neg _ (by simpa using hpf)]
            exact ih hnd
        | none => exact ih hnd

/-- Looking up a field in `detect_columns`' result is resolving its
candidate synonym list. -/
theorem lookupField_detectColumns (hs : List String) (f : ColField) :
    lookupField (detectColumns hs) f = resolveField (fieldCands f) hs := by
  rw [detectColumns, find_filterMap_keyed columnMapping hs f (by decide)]
  cases f <;> rfl

/-- C4 (amended): exactness priority holds per candidate, in priority
order: if no candidate before `c` in a field's synonym list matches any
header (exactly or fuzzily) and some header exactly matches `c`, then
`detect_columns` binds the field to exactly `c`; a fuzzy match never
overrides an exact match of the same candidate.  (An exact match of a
lower-priority candidate can still lose to a fuzzy match of a
higher-priority one.) -/
theorem detectColumns_exact_priority (hs : List String) (f : ColField)
    (pre : List String) (c : String) (post : List String)
    (hsplit : fieldCands f = pre ++ c :: post)
    (hpre : ∀ d ∈ pre, hs.contains d = false ∧ findFuzzy d hs = none)
    (hc : hs.contains c = true) :
    lookupField (detectColumns hs) f = some c := by
  rw [lookupField_detectColumns, hsplit]
  clear hsplit
  induction pre with
  | nil => exact resolveField_exact c post hs hc
  | cons d pre ih =>
      have hd := hpre d (List.mem_cons_self d pre)
      rw [List.cons_append, resolveField_skip d _ hs hd.1 hd.2]
      exact ih (fun e he => hpre e (List.mem_cons_of_mem d he))

/-- C4 witness: on the single header `"country"`, which exactly matches the
first `country` candidate, the field binds to it. -/
theorem detectColumns_exact_priority_witness :
    lookupField (detectColumns ["country"]) .country = some "country" :=
  detectColumns_exact_priority ["country"] .country [] "country"
    ["Country", "COUNTRY", "market", "Market", "MARKET"] (by rfl)
    (by intro d hd; cases hd) (by decide)

/- ### C10: well-formedness of the detected mapping -/

/-- The detected entries' keys are a sub-sequence of the synonym table's
keys. -/
theorem detectColumns_keys_sublist (l : List (ColField × List String))
    (hs : List String) :
    ((l.filterMap
        (fun p => (resolveField p.2 hs).map (fun x => (p.1, x)))).map
      Prod.fst).Sublist (l.map Prod.fst) := by
  induction l with
  | nil => exact List.Sublist.refl _
  | cons p l ih =>
      rw [List.filterMap_cons]
      cases hr : resolveField p.2 hs with
      | none =>
          rw [List.map_cons]
          exact ih.cons p.1
      | some x =>
          rw [Option.map_some', List.map_cons, List.map_cons]
          exact ih.cons₂ p.1

/-- C10: `detect_columns` is total (it is a Lean function) and returns a
well-formed partial mapping: each canonical field appears at most once as
a key, and every bound value is a header present in the input list. -/
theorem detectColumns_wellformed (hs : List String) :
    ((detectColumns hs).map Prod.fst).Nodup ∧
    ∀ p ∈ detectColumns hs, p.2 ∈ hs := by
  constructor
  · exact (detectColumns_keys_sublist columnMapping hs).nodup (by decide)
  · intro p hp
    rw [detectColumns] at hp
    rw [List.mem_filterMap] at hp
    obtain ⟨a, _, ha⟩ := hp
    rw [Option.map_eq_some'] at ha
    obtain ⟨x, hx, hxa⟩ := ha
    have := resolveField_mem a.2 hs x hx
    rw [← hxa]
    exact this

/-- C10 witness: on the single header `"Provider"` the resolver binds only
`psp` (fuzzily, via the candidate `"payment service provider"`), and the
bound value is indeed one of the input headers. -/
theorem detectColumns_wellformed_witness :
    ((ColField.psp, "Provider") : ColField × String).2 ∈
      (["Provider"] : List String) :=
  (detectColumns_wellformed ["Provider"]).2 (ColField.psp, "Provider")
    (by decide)

/- ### Share-update bookkeeping lemmas -/

theorem shareUpd_press_buy (tp tc : ℚ) (r : ERow) :
    (shareUpd tp tc r).press_buy = r.press_buy := rfl

theorem shareUpd_converted (tp tc : ℚ) (r : ERow) :
    (shareUpd tp tc r).converted = r.converted := rfl

theorem shareUpd_rate (tp tc : ℚ) (r : ERow) :
    (shareUpd tp tc r).conversion_rate = r.conversion_rate := rfl

theorem shareUpd_cells (tp tc : ℚ) (r : ERow) :
    (shareUpd tp tc r).cells = r.cells := rfl

theorem shareUpd_keyOf (tp tc : ℚ) (r : ERow) :
    keyOf (shareUpd tp tc r) = keyOf r := rfl

theorem shareUpd_pshare (tp tc : ℚ) (r : ERow) :
    (shareUpd tp tc r).press_buy_share =
      if 0 < tp then round2 (r.press_buy / tp * 100) else 0 := rfl

theorem shareUpd_cshare (tp tc : ℚ) (r : ERow) :
    (shareUpd tp tc r).converted_share =
      if 0 < tc then round2 (r.converted / tc * 100) else 0 := rfl

theorem addShares_length (g : List ERow) : (addShares g).length = g.length :=
  List.length_map g _

theorem addShares_map_press_buy (g : List ERow) :
    (addShares g).map ERow.press_buy = g.map ERow.press_buy := by
  simp [addShares, List.map_map, Function.comp_def, shareUpd_press_buy]

theorem addShares_map_converted (g : List ERow) :
    (addShares g).map ERow.converted = g.map ERow.converted := by
  simp [addShares, List.map_map, Function.comp_def, shareUpd_converted]

theorem addShares_map_cells (g : List ERow) :
    (addShares g).map ERow.cells = g.map ERow.cells := by
  simp [addShares, List.map_map, Function.comp_def, shareUpd_cells]

theorem mem_addShares {g : List ERow} {r : ERow} (h : r ∈ addShares g) :
    ∃ r0 ∈ g,
      r = shareUpd ((g.map ERow.press_buy).sum) ((g.map ERow.converted).sum) r0 := by
  rw [addShares] at h
  rw [List.mem_map] at h
  obtain ⟨r0, h0, hr⟩ := h
  exact ⟨r0, h0, hr.symm⟩

/- ### Destructuring `processData` -/

theorem processData_eq_ok (t : RawTable) (pt : ProcTable)
    (h : processData t = .ok pt) :
    ∃ ip icv ico iw, resolveIdxs t = some (ip, icv, ico, iw) ∧
      pt = ⟨renamedHeaders t.headers,
            groupRows (enrichRows ico iw ip icv t.rows)⟩ := by
  simp only [processData] at h
  by_cases hreq : requiredFields.all
      (fun f => (lookupField (detectColumns t.headers) f).isSome) = true
  · rw [if_pos hreq] at h
    cases hip : (renamedHeaders t.headers).findIdx?
        (fun x => decide (x = "press_buy")) with
    | none => rw [hip] at h; cases h
    | some ip =>
      rw [hip] at h
      cases hicv : (renamedHeaders t.headers).findIdx?
          (fun x => decide (x = "converted")) with
      | none => rw [hicv] at h; cases h
      | some icv =>
        rw [hicv] at h
        cases hico : (renamedHeaders t.headers).findIdx?
            (fun x => decide (x = "country")) with
        | none => rw [hico] at h; cases h
        | some ico =>
          rw [hico] at h
          cases hiw : (renamedHeaders t.headers).findIdx?
              (fun x => decide (x = "week")) with
          | none => rw [hiw] at h; cases h
          | some iw =>
            rw [hiw] at h
            refine ⟨ip, icv, ico, iw, ?_, ?_⟩
            · simp only [resolveIdxs]
              rw [hip, hicv, hico, hiw]
            · cases h
              rfl
  · rw [if_neg hreq] at h
    cases h

theorem getRows_cases (t : RawTable) :
    getRows (processData t) = [] ∨
    ∃ ip icv ico iw, resolveIdxs t = some (ip, icv, ico, iw) ∧
      getRows (processData t) = groupRows (enrichRows ico iw ip icv t.rows) := by
  cases hp : processData t with
  | error e => left; rw [getRows]
  | ok pt =>
      right
      obtain ⟨ip, icv, ico, iw, hidx, hpt⟩ := processData_eq_ok t pt hp
      exact ⟨ip, icv, ico, iw, hidx, by rw [getRows, hpt]⟩

/- ### Group structure of `groupRows` -/

theorem keyOf_mem_bucket {rs : List ERow} {k' : Cell × Cell} {r : ERow}
    (h : r ∈ addShares (rs.filter (fun x => decide (keyOf x = k')))) :
    keyOf r = k' := by
  obtain ⟨r0, h0, hr⟩ := mem_addShares h
  have hk : keyOf r0 = k' := by
    have := (List.mem_filter.mp h0).2
    simpa using this
  rw [hr, shareUpd_keyOf, hk]

theorem filter_bucket (rs : List ERow) (k k' : Cell × Cell) :
    (addShares (rs.filter (fun x => decide (keyOf x = k')))).filter
        (fun r => decide (keyOf r = k)) =
      if k' = k then addShares (rs.filter (fun x => decide (keyOf x = k')))
      else [] := by
  by_cases h : k' = k
  · rw [if_pos h]
    rw [List.filter_eq_self]
    intro r hr
    simpa using (keyOf_mem_bucket hr).trans h
  · rw [if_neg h]
    rw [List.filter_eq_nil_iff]
    intro r hr
    simp only [decide_eq_true_eq]
    rw [keyOf_mem_bucket hr]
    exact h

theorem flatten_if_not_mem {K : Type} [DecidableEq K] {ks : List K} {k : K}
    (F : K → List ERow) (h : k ∉ ks) :
    ((ks.map (fun x => if x = k then F x else [])).flatten = []) := by
  induction ks with
  | nil => rfl
  | cons a ks ih =>
      simp only [List.mem_cons, not_or] at h
      rw [List.map_cons, List.flatten_cons, if_neg (fun hx => h.1 hx.symm),
        List.nil_append]
      exact ih h.2

theorem flatten_if_mem {K : Type} [DecidableEq K] {ks : List K} {k : K}
    (F : K → List ERow) (hnd : ks.Nodup) (h : k ∈ ks) :
    ((ks.map (fun x => if x = k then F x else [])).flatten = F k) := by
  induction ks with
  | nil => cases h
  | cons a ks ih =>
      rw [List.nodup_cons] at hnd
      rw [List.map_cons, List.flatten_cons]
      by_cases hak : a = k
      · rw [if_pos hak]
        rw [flatten_if_not_mem F (hak ▸ hnd.1), List.append_nil, hak]
      · rw [if_neg hak]
        rw [List.nil_append]
        exact ih hnd.2 (by
          rcases List.mem_cons.mp h with h1 | h2
          · exact absurd h1.symm hak
          · exact h2)

theorem groupKeys_nodup (rs : List ERow) : (groupKeys rs).Nodup := by
  have hp := List.perm_insertionSort (fun a b => keyLeB a b = true)
    (((rs.map keyOf).dedup).filter validKey)
  exact hp.symm.nodup ((List.nodup_dedup _).filter _)

theorem mem_groupKeys {rs : List ERow} {k : Cell × Cell} :
    k ∈ groupKeys rs ↔ (validKey k = true ∧ ∃ r ∈ rs, keyOf r = k) := by
  rw [groupKeys, sortKeys]
  rw [(List.perm_insertionSort _ _).mem_iff]
  rw [List.mem_filter, List.mem_dedup, List.mem_map]
  constructor
  · rintro ⟨⟨r, hr, hk⟩, hv⟩
    exact ⟨hv, r, hr, hk⟩
  · rintro ⟨hv, r, hr, hk⟩
    exact ⟨⟨r, hr, hk⟩, hv⟩

theorem groupRows_filter_valid (rs : List ERow) (k : Cell × Cell)
    (hv : validKey k = true) :
    (groupRows rs).filter (fun r => decide (keyOf r = k)) =
      addShares (rs.filter (fun r => decide (keyOf r = k))) := by
  rw [groupRows, List.filter_flatten, List.map_map]
  have hfun : (List.filter (fun r => decide (keyOf r = k))) ∘
      (fun k' => addShares (rs.filter (fun x => decide (keyOf x = k')))) =
      fun k' => if k' = k
        then addShares (rs.filter (fun x => decide (keyOf x = k'))) else [] :=
    funext (fun k' => filter_bucket rs k k')
  rw [hfun]
  by_cases hk : k ∈ groupKeys rs
  · rw [flatten_if_mem _ (groupKeys_nodup rs) hk]
  · rw [flatten_if_not_mem _ hk]
    have hnil : rs.filter (fun r => decide (keyOf r = k)) = [] := by
      rw [List.filter_eq_nil_iff]
      intro r hr hkey
      exact hk (mem_groupKeys.mpr ⟨hv, r, hr, by simpa using hkey⟩)
    rw [hnil]
    rfl

theorem keyOf_mem_groupRows {rs : List ERow} {r : ERow}
    (h : r ∈ groupRows rs) : keyOf r ∈ groupKeys rs := by
  rw [groupRows, List.mem_flatten] at h
  obtain ⟨l, hl, hr⟩ := h
  rw [List.mem_map] at hl
  obtain ⟨k', hk', hlk⟩ := hl
  rw [← hlk] at hr
  rw [keyOf_mem_bucket hr]
  exact hk'

theorem groupRows_filter_invalid (rs : List ERow) (k : Cell × Cell)
    (hv : validKey k = false) :
    (groupRows rs).filter (fun r => decide (keyOf r = k)) = [] := by
  rw [List.filter_eq_nil_iff]
  intro r hr hkey
  have hk : keyOf r = k := by simpa using hkey
  have := (mem_groupKeys.mp (hk ▸ keyOf_mem_groupRows hr)).1
  rw [hv] at this
  cases this

theorem mem_groupRows_fields {rs : List ERow} {r : ERow}
    (h : r ∈ groupRows rs) :
    ∃ r0 ∈ rs, r.press_buy = r0.press_buy ∧ r.converted = r0.converted ∧
      r.conversion_rate = r0.conversion_rate := by
  rw [groupRows, List.mem_flatten] at h
  obtain ⟨l, hl, hr⟩ := h
  rw [List.mem_map] at hl
  obtain ⟨k', hk', hlk⟩ := hl
  rw [← hlk] at hr
  obtain ⟨r0, h0, hrEq⟩ := mem_addShares hr
  exact ⟨r0, (List.mem_filter.mp h0).1, by rw [hrEq, shareUpd_press_buy],
    by rw [hrEq, shareUpd_converted], by rw [hrEq, shareUpd_rate]⟩

/- ### Counting rows across groups -/

theorem sum_map_zero {K : Type} (ks : List K) :
    (ks.map (fun _ => (0 : ℕ))).sum = 0 := by
  induction ks with
  | nil => rfl
  | cons a ks ih => simpa using ih

theorem sum_map_add {K : Type} (ks : List K) (f g : K → ℕ) :
    (ks.map (fun k => f k + g k)).sum = (ks.map f).sum + (ks.map g).sum := by
  induction ks with
  | nil => rfl
  | cons a ks ih =>
      simp only [List.map_cons, List.sum_cons, ih]
      omega

theorem sum_ind_not_mem {K : Type} [DecidableEq K] {ks : List K} {x : K}
    (h : x ∉ ks) :
    (ks.map (fun k => if x = k then (1 : ℕ) else 0)).sum = 0 := by
  induction ks with
  | nil => rfl
  | cons a ks ih =>
      simp only [List.mem_cons, not_or] at h
      simp only [List.map_cons, List.sum_cons, if_neg h.1, ih h.2]

theorem sum_ind_mem {K : Type} [DecidableEq K] {ks : List K} {x : K}
    (hnd : ks.Nodup) (h : x ∈ ks) :
    (ks.map (fun k => if x = k then (1 : ℕ) else 0)).sum = 1 := by
  induction ks with
  | nil => cases h
  | cons a ks ih =>
      rw [List.nodup_cons] at hnd
      simp only [List.map_cons, List.sum_cons]
      by_cases hxa : x = a
      · rw [if_pos hxa, sum_ind_not_mem (hxa ▸ hnd.1)]
      · rw [if_neg hxa]
        rw [ih hnd.2 (by
          rcases List.mem_cons.mp h with h1 | h2
          · exact absurd h1 hxa
          · exact h2)]

theorem sum_bucket_lengths (rs : List ERow) (ks : List (Cell × Cell))
    (hnd : ks.Nodup) (hcov : ∀ r ∈ rs, keyOf r ∈ ks) :
    (ks.map
        (fun k => (rs.filter (fun r => decide (keyOf r = k))).length)).sum =
      rs.length := by
  induction rs with
  | nil => simpa using sum_map_zero ks
  | cons r rs ih =>
      have hcov' : ∀ x ∈ rs, keyOf x ∈ ks :=
        fun x hx => hcov x (List.mem_cons_of_mem r hx)
      have hfil : ∀ k,
          (List.filter (fun x => decide (keyOf x = k)) (r :: rs)).length =
            (if keyOf r = k then 1 else 0) +
              (List.filter (fun x => decide (keyOf x = k)) rs).length := by
        intro k
        rw [List.filter_cons]
        by_cases hk : keyOf r = k
        · simp [hk]
          omega
        · simp [hk]
      rw [List.map_congr_left (fun k _ => hfil k), sum_map_add,
        sum_ind_mem hnd (hcov r (List.mem_cons_self r rs)), ih hcov',
        List.length_cons]
      omega

/- ### C2: row count and row order -/

/-- C2 (amended): when the pipeline succeeds, the output has the same row
count as the input provided every row carries a non-null `(country, week)`
key, and within each such group the rows keep their input cells and input
order; across groups, however, the output is reordered by sorted group
key (see `processData_order_counterexample`). -/
theorem processData_rowcount_grouporder (t : RawTable) (pt : ProcTable)
    (ip icv ico iw : Nat) (hok : processData t = .ok pt)
    (hidx : resolveIdxs t = some (ip, icv, ico, iw)) :
    ((∀ r ∈ enrichRows ico iw ip icv t.rows, validKey (keyOf r) = true) →
        pt.rows.length = t.rows.length) ∧
    (∀ k, validKey k = true →
        (pt.rows.filter (fun r => decide (keyOf r = k))).map ERow.cells =
          ((enrichRows ico iw ip icv t.rows).filter
              (fun r => decide (keyOf r = k))).map ERow.cells) := by
  obtain ⟨ip', icv', ico', iw', hidx', hpt⟩ := processData_eq_ok t pt hok
  rw [hidx] at hidx'
  have heq := Option.some.inj hidx'
  rw [Prod.mk.injEq, Prod.mk.injEq, Prod.mk.injEq] at heq
  obtain ⟨rfl, rfl, rfl, rfl⟩ := heq
  subst hpt
  constructor
  · intro hval
    dsimp only
    rw [groupRows, List.length_flatten, List.map_map]
    have hcomp : (List.length ∘ fun k =>
        addShares ((enrichRows ico iw ip icv t.rows).filter
          (fun x => decide (keyOf x = k)))) = fun k =>
        ((enrichRows ico iw ip icv t.rows).filter
          (fun x => decide (keyOf x = k))).length :=
      funext fun k => by simp [Function.comp_def, addShares_length]
    rw [hcomp]
    rw [sum_bucket_lengths _ (groupKeys _) (groupKeys_nodup _)
      (fun r hr => mem_groupKeys.mpr ⟨hval r hr, r, hr, rfl⟩)]
    exact List.length_map t.rows _
  · intro k hv
    dsimp only
    rw [groupRows_filter_valid _ k hv, addShares_map_cells]

/- ### The conversion-rate formula -/

theorem convRate_cases (cv pb : ℚ) :
    replaceInf (eround2 (emulPos (ediv cv pb) 100)) =
      if pb = 0 then (if cv = 0 then EVal.nan else EVal.fin 0)
      else EVal.fin (round2 (cv / pb * 100)) := by
  by_cases hpb : pb = 0
  · subst hpb
    rw [if_pos rfl]
    by_cases hcv : cv = 0
    · subst hcv
      simp [ediv, emulPos, eround2, replaceInf]
    · rw [if_neg hcv]
      rcases lt_or_gt_of_ne hcv with h | h
      · simp [ediv, emulPos, eround2, replaceInf, h, lt_asymm h]
      · simp [ediv, emulPos, eround2, replaceInf, h]
  · rw [if_neg hpb]
    simp [ediv, hpb, emulPos, eround2, replaceInf]

/-- C3 (amended): for every record of a processed table,
`conversion_rate` is `converted / press_buy * 100` rounded to 2 decimals
when `press_buy` is nonzero; it is 0 when `press_buy` is 0 and `converted`
is nonzero (the infinite ratio is replaced by 0); but when both are 0 the
`0/0` ratio is `NaN` and stays `NaN` (it is not normalized to 0). -/
theorem conversionRate_formula (t : RawTable) (r : ERow)
    (h : r ∈ getRows (processData t)) :
    r.conversion_rate =
      if r.press_buy = 0 then
        (if r.converted = 0 then EVal.nan else EVal.fin 0)
      else EVal.fin (round2 (r.converted / r.press_buy * 100)) := by
  rcases getRows_cases t with he | ⟨ip, icv, ico, iw, hidx, he⟩
  · rw [he] at h; cases h
  · rw [he] at h
    obtain ⟨r0, h0, hpb, hcv, hrate⟩ := mem_groupRows_fields h
    rw [enrichRows, List.mem_map] at h0
    obtain ⟨raw, hraw, hr0⟩ := h0
    have hform : r0.conversion_rate =
        replaceInf (eround2 (emulPos (ediv r0.converted r0.press_buy) 100)) := by
      rw [← hr0]
      rfl
    rw [hrate, hpb, hcv, hform]
    exact convRate_cases _ _

/- ### C5: schema failure behaviour -/

/-- C5 (amended): when a required canonical field is unresolved the
pipeline aborts with the schema error and produces no partial result —
but the error carries the fixed generic message, which does not name the
unresolved fields (see `schemaError_message_counterexample`); when all
required fields resolve, no schema error is ever produced, and
`payment_option` is not among the required fields, so its absence alone
never aborts the pipeline. -/
theorem schemaError_behavior (t : RawTable) :
    ((∃ f ∈ requiredFields, lookupField (detectColumns t.headers) f = none) →
        processData t = .error (.schema schemaMsg)) ∧
    ((∀ f ∈ requiredFields,
          (lookupField (detectColumns t.headers) f).isSome = true) →
        ∀ msg, processData t ≠ .error (.schema msg)) ∧
    ColField.payment_option ∉ requiredFields := by
  refine ⟨?_, ?_, by decide⟩
  · rintro ⟨f, hf, hnone⟩
    have hall : (requiredFields.all
        (fun f => (lookupField (detectColumns t.headers) f).isSome)) = false := by
      rw [List.all_eq_false]
      exact ⟨f, hf, by simp [hnone]⟩
    simp only [processData, hall]
    rfl
  · intro hres msg heq
    have hall : (requiredFields.all
        (fun f => (lookupField (detectColumns t.headers) f).isSome)) = true := by
      rw [List.all_eq_true]
      exact hres
    simp only [processData, hall, if_true] at heq
    repeat' split at heq
    all_goals simp at heq

/- ### Rounding-error bound for share sums -/

theorem roundHalfEven_abs (y : ℚ) :
    |((roundHalfEven y : ℤ) : ℚ) - y| ≤ 1 / 2 := by
  have hf0 : ((⌊y⌋ : ℤ) : ℚ) ≤ y := Int.floor_le y
  have hf1 : y < ((⌊y⌋ : ℤ) : ℚ) + 1 := Int.lt_floor_add_one y
  rw [roundHalfEven]
  split_ifs with h1 h2 h3
  · rw [abs_le]
    constructor <;> linarith
  · rw [not_lt] at h1
    push_cast
    rw [abs_le]
    constructor <;> linarith
  · rw [not_lt] at h1 h2
    rw [abs_le]
    constructor <;> linarith
  · rw [not_lt] at h1 h2
    push_cast
    rw [abs_le]
    constructor <;> linarith

theorem abs_round2_sub (x : ℚ) : |round2 x - x| ≤ 1 / 200 := by
  have h := roundHalfEven_abs (x * 100)
  rw [round2]
  have heq : ((roundHalfEven (x * 100) : ℤ) : ℚ) / 100 - x
      = (((roundHalfEven (x * 100) : ℤ) : ℚ) - x * 100) / 100 := by ring
  rw [heq, abs_div, abs_of_pos (by norm_num : (0 : ℚ) < 100)]
  have hd : |((roundHalfEven (x * 100) : ℤ) : ℚ) - x * 100| / 100 ≤
      (1 / 2) / 100 :=
    (div_le_div_right (by norm_num : (0 : ℚ) < 100)).mpr h
  linarith

theorem sum_round2_err (l : List ℚ) :
    |(l.map round2).sum - l.sum| ≤ (l.length : ℚ) / 200 := by
  induction l with
  | nil => simp
  | cons x l ih =>
      rw [List.map_cons, List.sum_cons, List.sum_cons, List.length_cons]
      have heq : round2 x + (l.map round2).sum - (x + l.sum)
          = (round2 x - x) + ((l.map round2).sum - l.sum) := by ring
      rw [heq]
      calc |(round2 x - x) + ((l.map round2).sum - l.sum)|
          ≤ |round2 x - x| + |(l.map round2).sum - l.sum| := abs_add _ _
        _ ≤ 1 / 200 + (l.length : ℚ) / 200 := add_le_add (abs_round2_sub x) ih
        _ = ((l.length + 1 : ℕ) : ℚ) / 200 := by push_cast; ring

theorem sum_map_div_total (B : List ERow) (f : ERow → ℚ) (T : ℚ)
    (hT : T ≠ 0) (hsum : (B.map f).sum = T) :
    (B.map (fun r => f r / T * 100)).sum = 100 := by
  have hfun : (fun r => f r / T * 100) = fun r => f r * (100 / T) := by
    funext r
    ring
  rw [hfun, List.sum_map_mul_right, hsum]
  field_simp

/- ### The output groups of the processed table -/

/-- The rows of the processed table that belong to the `(country, week)`
group `k`. -/
def outGroup (t : RawTable) (k : Cell × Cell) : List ERow :=
  (getRows (processData t)).filter (fun r => decide (keyOf r = k))

theorem outGroup_eq (t : RawTable) (k : Cell × Cell) :
    outGroup t k = [] ∨
    ∃ ip icv ico iw, resolveIdxs t = some (ip, icv, ico, iw) ∧
      validKey k = true ∧
      outGroup t k = addShares ((enrichRows ico iw ip icv t.rows).filter
        (fun r => decide (keyOf r = k))) := by
  rcases getRows_cases t with he | ⟨ip, icv, ico, iw, hidx, he⟩
  · left
    rw [outGroup, he]
    rfl
  · by_cases hv : validKey k = true
    · right
      exact ⟨ip, icv, ico, iw, hidx, hv, by
        rw [outGroup, he, groupRows_filter_valid _ _ hv]⟩
    · left
      have hvf : validKey k = false := by
        revert hv
        cases validKey k <;> simp
      rw [outGroup, he, groupRows_filter_invalid _ _ hvf]

theorem outGroup_shares (t : RawTable) (k : Cell × Cell) (r : ERow)
    (h : r ∈ outGroup t k) :
    r.press_buy_share = (if 0 < ((outGroup t k).map ERow.press_buy).sum
        then round2 (r.press_buy /
          ((outGroup t k).map ERow.press_buy).sum * 100)
        else 0) ∧
    r.converted_share = (if 0 < ((outGroup t k).map ERow.converted).sum
        then round2 (r.converted /
          ((outGroup t k).map ERow.converted).sum * 100)
        else 0) := by
  rcases outGroup_eq t k with he | ⟨ip, icv, ico, iw, _, _, he⟩
  · rw [he] at h
    cases h
  · rw [he] at h ⊢
    rw [addShares_map_press_buy, addShares_map_converted]
    obtain ⟨r0, h0, hr⟩ := mem_addShares h
    constructor
    · rw [hr, shareUpd_pshare, shareUpd_press_buy]
    · rw [hr, shareUpd_cshare, shareUpd_converted]

/-- C7: within each `(country, week)` group of the processed table, the
share columns are 0 for every row when the group total is 0 (the group's
rows are kept, with length preserved, and their shares are the rational 0,
never `NaN` — the share columns are plain rationals by construction), and
equal `value / total * 100` rounded to 2 decimals when the total is
positive. -/
theorem share_group_spec (t : RawTable) (k : Cell × Cell) :
    (((outGroup t k).map ERow.press_buy).sum = 0 →
        ∀ r ∈ outGroup t k, r.press_buy_share = 0) ∧
    (0 < ((outGroup t k).map ERow.press_buy).sum →
        ∀ r ∈ outGroup t k, r.press_buy_share =
          round2 (r.press_buy /
            ((outGroup t k).map ERow.press_buy).sum * 100)) ∧
    (((outGroup t k).map ERow.converted).sum = 0 →
        ∀ r ∈ outGroup t k, r.converted_share = 0) ∧
    (0 < ((outGroup t k).map ERow.converted).sum →
        ∀ r ∈ outGroup t k, r.converted_share =
          round2 (r.converted /
            ((outGroup t k).map ERow.converted).sum * 100)) ∧
    (∀ pt, processData t = .ok pt →
        ∀ ip icv ico iw, resolveIdxs t = some (ip, icv, ico, iw) →
          validKey k = true →
          (outGroup t k).length =
            ((enrichRows ico iw ip icv t.rows).filter
                (fun r => decide (keyOf r = k))).length) := by
  refine ⟨?_, ?_, ?_, ?_, ?_⟩
  · intro h0 r hr
    rw [(outGroup_shares t k r hr).1, h0]
    rw [if_neg (lt_irrefl 0)]
  · intro hpos r hr
    rw [(outGroup_shares t k r hr).1, if_pos hpos]
  · intro h0 r hr
    rw [(outGroup_shares t k r hr).2, h0]
    rw [if_neg (lt_irrefl 0)]
  · intro hpos r hr
    rw [(outGroup_shares t k r hr).2, if_pos hpos]
  · intro pt hok ip icv ico iw hidx hv
    obtain ⟨ip', icv', ico', iw', hidx', hpt⟩ := processData_eq_ok t pt hok
    rw [hidx] at hidx'
    have heq := Option.some.inj hidx'
    rw [Prod.mk.injEq, Prod.mk.injEq, Prod.mk.injEq] at heq
    obtain ⟨rfl, rfl, rfl, rfl⟩ := heq
    rw [outGroup, hok]
    rw [show getRows (Except.ok pt) = pt.rows from rfl, hpt]
    dsimp only
    rw [groupRows_filter_valid _ _ hv, addShares_length]

/-- C6 (amended): for every `(country, week)` group of the processed table
with positive `press_buy` total, the rounded shares sum to 100 up to a
rounding error of at most `n * 0.005` where `n` is the number of rows of
the group — so the claimed `±0.1` tolerance holds only for groups of at
most 20 rows (see `share_sum_tolerance_counterexample` for a 23-row group
at `99.89`). -/
theorem share_sum_bound (t : RawTable) (k : Cell × Cell)
    (hpos : 0 < ((outGroup t k).map ERow.press_buy).sum) :
    |((outGroup t k).map ERow.press_buy_share).sum - 100| ≤
      ((outGroup t k).length : ℚ) / 200 := by
  rcases outGroup_eq t k with he | ⟨ip, icv, ico, iw, _, _, he⟩
  · rw [he] at hpos
    simp at hpos
  · rw [he] at hpos ⊢
    rw [addShares_map_press_buy] at hpos
    have hshares : (addShares ((enrichRows ico iw ip icv t.rows).filter
          (fun r => decide (keyOf r = k)))).map ERow.press_buy_share
        = (((enrichRows ico iw ip icv t.rows).filter
            (fun r => decide (keyOf r = k))).map
            (fun r0 => r0.press_buy /
              (((enrichRows ico iw ip icv t.rows).filter
                (fun r => decide (keyOf r = k))).map ERow.press_buy).sum *
                100)).map round2 := by
      rw [addShares, List.map_map, List.map_map]
      refine List.map_congr_left (fun r0 _ => ?_)
      show (shareUpd _ _ r0).press_buy_share = round2 _
      rw [shareUpd_pshare, if_pos hpos]
    rw [hshares, addShares_length]
    have hsum := sum_map_div_total
      ((enrichRows ico iw ip icv t.rows).filter
        (fun r => decide (keyOf r = k)))
      ERow.press_buy _ (ne_of_gt hpos) rfl
    have hb := sum_round2_err
      (((enrichRows ico iw ip icv t.rows).filter
          (fun r => decide (keyOf r = k))).map
        (fun r0 => r0.press_buy /
          (((enrichRows ico iw ip icv t.rows).filter
            (fun r => decide (keyOf r = k))).map ERow.press_buy).sum * 100))
    rw [hsum, List.length_map] at hb
    exact hb

/- ### Concrete processed records used by the witnesses -/

/-- The first enriched record of `sampleTable`'s processed output. -/
def sampleRow1 : ERow :=
  ⟨[.str "US", .str "PayPal", .str "W1", .num 100, .num 20],
   .str "US", .str "W1", 100, 20, .fin 20, 6667 / 100, 6667 / 100⟩

/-- The second enriched record of `sampleTable`'s processed output. -/
def sampleRow2 : ERow :=
  ⟨[.str "US", .str "Stripe", .str "W1", .num 50, .num 10],
   .str "US", .str "W1", 50, 10, .fin 20, 3333 / 100, 3333 / 100⟩

/-- The processed output of `sampleTable`. -/
def samplePt : ProcTable :=
  ⟨["country", "psp", "week", "press_buy", "converted"],
   [sampleRow1, sampleRow2]⟩

unseal Rat.mul Rat.add Rat.sub Rat.inv in
/-- C2 witness: on the canonical two-row sample the row count is
preserved (every key is the non-null `(US, W1)`). -/
theorem processData_rowcount_grouporder_witness :
    samplePt.rows.length = sampleTable.rows.length :=
  (processData_rowcount_grouporder sampleTable samplePt 3 4 0 2 (by rfl)
    (by rfl)).1 (by decide)

unseal Rat.mul Rat.add Rat.sub Rat.inv in
/-- C3 witness: the first processed sample record has `press_buy = 100 ≠ 0`
and `conversion_rate = round2(20 / 100 * 100)`. -/
theorem conversionRate_formula_witness :
    sampleRow1.conversion_rate =
      if sampleRow1.press_buy = 0 then
        (if sampleRow1.converted = 0 then EVal.nan else EVal.fin 0)
      else EVal.fin (round2 (sampleRow1.converted /
        sampleRow1.press_buy * 100)) :=
  conversionRate_formula sampleTable sampleRow1 (by decide)

/-- C5 witness: with no recognizable `country` header the pipeline aborts
with the schema error. -/
theorem schemaError_behavior_witness :
    processData missingCountryTable = .error (.schema schemaMsg) :=
  (schemaError_behavior missingCountryTable).1
    ⟨.country, by decide, by decide⟩

unseal Rat.mul Rat.add Rat.sub Rat.inv in
/-- C6 witness: the `(US, W1)` group of the processed sample (total 150)
has its share sum within `n / 200` of 100. -/
theorem share_sum_bound_witness :
    |((outGroup sampleTable (Cell.str "US", Cell.str "W1")).map
        ERow.press_buy_share).sum - 100| ≤
      ((outGroup sampleTable (Cell.str "US", Cell.str "W1")).length : ℚ) /
        200 :=
  share_sum_bound sampleTable (Cell.str "US", Cell.str "W1") (by decide)

unseal Rat.mul Rat.add Rat.sub Rat.inv in
/-- C7 witness: in the `(US, W1)` group of the processed sample (total
150 > 0) the first record's share is `round2(100 / 150 * 100)`. -/
theorem share_group_spec_witness :
    sampleRow1.press_buy_share =
      round2 (sampleRow1.press_buy /
        ((outGroup sampleTable (Cell.str "US", Cell.str "W1")).map
          ERow.press_buy).sum * 100) :=
  (share_group_spec sampleTable (Cell.str "US", Cell.str "W1")).2.1
    (by decide) sampleRow1 (by decide)
